import Mathlib

/-!
Verification development for the TFSA penalty calculator (src/script.js).

The core engine `calculatePenalty(year, startRoom, txs)` walks every UTC
calendar day of the year, applying a date-sorted transaction ledger to a
room/excess state, and finalizes monthly penalty records plus projections.

Modelling choices:
* JS numbers are modelled by the rationals; the spec states that amounts use
  ordinary decimal arithmetic with no epsilon handling.  The CSV import layer
  additionally models the non-finite values that JS parseFloat can produce.
* Dates are the YYYY-MM-DD strings the program itself manipulates; the
  comparisons in the source are JS string comparisons, which coincide with
  the lexicographic order on Lean strings for these ASCII strings.
* The JS Array.prototype.sort with the comparator of lines 269-274 is a
  stable sort by date (stability is guaranteed by the ECMAScript spec); it is
  modelled by insertion sort with the reflexive date order, which is stable.
* Date.UTC maps the year arguments 0..99 to 1900..1999; `utcFullYear` keeps
  that behaviour.
-/

/-- Transaction kind; the source uses the strings CONTRIBUTION / WITHDRAWAL,
which are the only two values the admission paths ever create. -/
inductive TxType where
  | CONTRIBUTION
  | WITHDRAWAL
deriving DecidableEq, Inhabited

/-- Ledger entry as consumed by calculatePenalty; the engine reads only the
date, type and amount fields (id and institution are ignored by it). -/
structure Tx where
  date : String
  type : TxType
  amount : ℚ
deriving DecidableEq, Inhabited

/-- Mutable simulation state of calculatePenalty (lines 277-290):
excess, unusedRoom, totalContributions, totalWithdrawals. -/
structure SimState where
  excess : ℚ
  unusedRoom : ℚ
  totalContributions : ℚ
  totalWithdrawals : ℚ
deriving DecidableEq

/-- Initialization of the simulation state from the starting room
(lines 277-290 of src/script.js). -/
def initState (startRoom : ℚ) : SimState :=
  if startRoom < 0 then
    { excess := |startRoom|, unusedRoom := 0
      totalContributions := 0, totalWithdrawals := 0 }
  else
    { excess := 0, unusedRoom := startRoom
      totalContributions := 0, totalWithdrawals := 0 }

/-- Application of a single transaction to the state (lines 312-341 of
src/script.js). -/
def applyTx (s : SimState) (tx : Tx) : SimState :=
  match tx.type with
  | TxType.CONTRIBUTION =>
      let s1 := { s with totalContributions := s.totalContributions + tx.amount }
      if s1.unusedRoom ≥ tx.amount then
        { s1 with unusedRoom := s1.unusedRoom - tx.amount }
      else
        { s1 with unusedRoom := 0, excess := s1.excess + (tx.amount - s1.unusedRoom) }
  | TxType.WITHDRAWAL =>
      let s1 := { s with totalWithdrawals := s.totalWithdrawals + tx.amount }
      if s1.excess > 0 then
        if s1.excess ≥ tx.amount then { s1 with excess := s1.excess - tx.amount }
        else { s1 with excess := 0 }
      else s1

/-- Date order used by the sort comparator of lines 269-274. -/
def txLe (a b : Tx) : Prop := a.date ≤ b.date

instance : DecidableRel txLe := fun a b =>
  inferInstanceAs (Decidable (a.date ≤ b.date))

instance : IsTotal Tx txLe := ⟨fun a b => le_total a.date b.date⟩

instance : IsTrans Tx txLe := ⟨fun _ _ _ h1 h2 => le_trans h1 h2⟩

/-- Stable sort by date (lines 268-274; JS sort is stable, modelled by
insertion sort). -/
def sortTxs (txs : List Tx) : List Tx := List.insertionSort txLe txs

/-- Gregorian leap year rule, as realized by the JS Date arithmetic. -/
def isLeap (y : ℕ) : Bool := (y % 4 == 0 && y % 100 != 0) || y % 400 == 0

/-- Month lengths of the UTC calendar walked by the daily loop; m is the
0-based month index. -/
def monthLength (y m : ℕ) : ℕ :=
  if m = 1 then (if isLeap y then 29 else 28)
  else if m = 3 ∨ m = 5 ∨ m = 8 ∨ m = 10 then 30
  else 31

/-- JS Date.UTC maps year arguments 0..99 to 1900..1999. -/
def utcFullYear (y : ℕ) : ℕ := if y < 100 then 1900 + y else y

/-- Two-digit zero padding, as padStart(2, ..) on lines 303-304. -/
def pad2 (n : ℕ) : String := if n < 10 then "0" ++ toString n else toString n

/-- The YYYY-MM-DD string built on lines 301-305 (y is the UTC full year,
m and d are 1-based). -/
def dateString (y m d : ℕ) : String :=
  toString y ++ "-" ++ pad2 m ++ "-" ++ pad2 d

/-- All days of the simulated year in order, as the pairs
(0-based month index, YYYY-MM-DD string) produced by the daily loop. -/
def daysOfYear (year : ℕ) : List (ℕ × String) :=
  (List.range 12).flatMap fun m =>
    (List.range (monthLength (utcFullYear year) m)).map fun d =>
      (m, dateString (utcFullYear year) (m + 1) (d + 1))

/-- State of the daily loop of lines 296-359.  The applied list instruments
the loop with the transactions consumed so far (the part of sortedTxs below
txIndex); pending is the part at and above txIndex. -/
structure LoopState where
  sim : SimState
  pending : List Tx
  applied : List Tx
  monthlyMax : List ℚ
  vizDates : List String
  vizExcess : List ℚ
deriving DecidableEq

/-- Inner while loop of lines 309-346: consume the pending transactions whose
date equals the current day string, in order; stop at the first other date.
Returns the new state, the consumed transactions and the remaining ones. -/
def applyDay (dateStr : String) : SimState → List Tx → SimState × List Tx × List Tx
  | s, [] => (s, [], [])
  | s, tx :: rest =>
      if tx.date = dateStr then
        let r := applyDay dateStr (applyTx s tx) rest
        (r.1, tx :: r.2.1, r.2.2)
      else
        (s, [], tx :: rest)

/-- Body of the daily loop (lines 300-359): apply the transactions of the
day, then update the monthly high-water mark and the chart trace. -/
def dayStep (st : LoopState) (day : ℕ × String) : LoopState :=
  let r := applyDay day.2 st.sim st.pending
  { sim := r.1
    pending := r.2.2
    applied := st.applied ++ r.2.1
    monthlyMax := st.monthlyMax.set day.1 (max (st.monthlyMax.getD day.1 0) r.1.excess)
    vizDates := st.vizDates ++ [day.2]
    vizExcess := st.vizExcess ++ [r.1.excess] }

/-- Loop state at entry of the daily loop. -/
def initLoop (startRoom : ℚ) (txs : List Tx) : LoopState :=
  { sim := initState startRoom
    pending := sortTxs txs
    applied := []
    monthlyMax := List.replicate 12 0
    vizDates := []
    vizExcess := [] }

/-- The daily loop over the whole year. -/
def runLoop (year : ℕ) (startRoom : ℚ) (txs : List Tx) : LoopState :=
  (daysOfYear year).foldl dayStep (initLoop startRoom txs)

/-- Transactions actually applied by the simulation. -/
def appliedTxs (year : ℕ) (startRoom : ℚ) (txs : List Tx) : List Tx :=
  (runLoop year startRoom txs).applied

/-- The successive loop states: the entry state followed by the state after
each simulated day, in day order. -/
def dayStates (year : ℕ) (startRoom : ℚ) (txs : List Tx) : List LoopState :=
  List.scanl dayStep (initLoop startRoom txs) (daysOfYear year)

/-- Per-day trace of the loop: for each day, its month index and the excess
value after the transactions of that day (an observation device for the
statements about the high-water marks). -/
def excessTrace (st : LoopState) : List (ℕ × String) → List (ℕ × ℚ)
  | [] => []
  | day :: rest => (day.1, (dayStep st day).sim.excess) :: excessTrace (dayStep st day) rest

/-- Month labels (line 6 of src/script.js). -/
def MONTHS : List String :=
  ["Jan", "Feb", "Mar", "Apr", "May", "Jun",
   "Jul", "Aug", "Sep", "Oct", "Nov", "Dec"]

/-- Per-month record produced by the finalize step (lines 365-376). -/
structure MonthlyRecord where
  month : String
  maxExcess : ℚ
  penalty : ℚ
  isAffected : Bool
deriving DecidableEq, Inhabited

/-- Result record of calculatePenalty (lines 399-414). -/
structure Result where
  totalPenalty : ℚ
  peakExcess : ℚ
  currentExcess : ℚ
  remainingRoom : ℚ
  nextYearLimit : ℚ
  totalContributions : ℚ
  totalWithdrawals : ℚ
  unusedRoomEndOfYear : ℚ
  nextAnnualLimit : ℚ
  affectedMonths : ℕ
  monthlyDetails : List MonthlyRecord
  vizDates : List String
  vizExcess : List ℚ
deriving DecidableEq

/-- Published annual limit table (lines 256-261). -/
def ANNUAL_LIMITS (y : ℕ) : Option ℚ :=
  if y = 2023 then some 6500
  else if y = 2024 then some 7000
  else if y = 2025 then some 7000
  else if y = 2026 then some 7000
  else none

/-- JS expression `o || d` for a looked-up numeric value: the default is used
when the lookup is absent (and also when the stored value is 0, which the
table never contains). -/
def jsOrQ (o : Option ℚ) (d : ℚ) : ℚ :=
  match o with
  | some v => if v = 0 then d else v
  | none => d

/-- JS Math.max over a spread array: maximum of the elements (the list fed to
it always has 12 elements; the empty case is dead code). -/
def jsMaxList (l : List ℚ) : ℚ :=
  match l with
  | [] => 0
  | h :: t => t.foldl max h

/-- Finalization of lines 361-414 from the final loop state. -/
def finalize (year : ℕ) (startRoom : ℚ) (fin : LoopState) : Result :=
  { totalPenalty := (fin.monthlyMax.map (fun mx => mx * (1 / 100))).sum
    peakExcess := jsMaxList fin.monthlyMax
    currentExcess := fin.sim.excess
    remainingRoom := max 0 (startRoom - fin.sim.totalContributions)
    nextYearLimit := (startRoom - fin.sim.totalContributions) + fin.sim.totalWithdrawals
      + jsOrQ (ANNUAL_LIMITS (year + 1)) 7000
    totalContributions := fin.sim.totalContributions
    totalWithdrawals := fin.sim.totalWithdrawals
    unusedRoomEndOfYear := startRoom - fin.sim.totalContributions
    nextAnnualLimit := jsOrQ (ANNUAL_LIMITS (year + 1)) 7000
    affectedMonths := fin.monthlyMax.countP (fun mx => decide (0 < mx))
    monthlyDetails := fin.monthlyMax.enum.map fun p =>
      { month := MONTHS.getD p.1 ""
        maxExcess := p.2
        penalty := p.2 * (1 / 100)
        isAffected := decide ((0 : ℚ) < p.2) }
    vizDates := fin.vizDates
    vizExcess := fin.vizExcess }

/-- The core engine calculatePenalty (lines 263-415 of src/script.js). -/
def calculatePenalty (year : ℕ) (startRoom : ℚ) (txs : List Tx) : Result :=
  finalize year startRoom (runLoop year startRoom txs)

/-- Excess values of the trace entries that belong to month index i, in day
order: exs is the vizData excess list, aligned with daysOfYear. -/
def monthVals (year : ℕ) (exs : List ℚ) (i : ℕ) : List ℚ :=
  ((daysOfYear year).zip exs).filterMap fun p =>
    if p.1.1 = i then some p.2 else none

/-! ### CSV import (processCsvData, lines 88-170 of src/script.js) -/

/-- JS number as produced by parseFloat: NaN, the infinities, or a finite
value (modelled as a rational). -/
inductive JsNum where
  | nan
  | inf
  | negInf
  | val (q : ℚ)
deriving DecidableEq

/-- JS isNaN on a parseFloat result. -/
def jsIsNaN (n : JsNum) : Bool :=
  match n with
  | JsNum.nan => true
  | _ => false

/-- JS comparison `n <= 0` on a parseFloat result. -/
def jsLeZero (n : JsNum) : Bool :=
  match n with
  | JsNum.nan => false
  | JsNum.inf => false
  | JsNum.negInf => true
  | JsNum.val q => decide (q ≤ 0)

/-- Strictly positive JS number (possibly the positive infinity). -/
def jsPos (n : JsNum) : Bool :=
  match n with
  | JsNum.inf => true
  | JsNum.val q => decide (0 < q)
  | _ => false

/-- Finite JS number (neither NaN nor an infinity). -/
def jsFinite (n : JsNum) : Bool :=
  match n with
  | JsNum.val _ => true
  | _ => false

/-- Numeric value of a digit character. -/
def digitVal (c : Char) : ℕ := c.toNat - 48

/-- Value of a digit run, most significant first. -/
def digitsToNat (l : List Char) : ℕ :=
  l.foldl (fun acc c => acc * 10 + digitVal c) 0

/-- Exponent part after the e/E marker: optional sign, then the longest
digit run; an empty digit run contributes exponent 0 (parseFloat backtracks
over an incomplete exponent). -/
def parseExpPart (l : List Char) : ℤ :=
  match l with
  | '+' :: t => (digitsToNat (t.takeWhile Char.isDigit) : ℤ)
  | '-' :: t => -(digitsToNat (t.takeWhile Char.isDigit) : ℤ)
  | t => (digitsToNat (t.takeWhile Char.isDigit) : ℤ)

/-- Mantissa of a decimal literal: digits, optionally a point and more
digits; at least one digit overall.  Returns the value and the rest. -/
def parseMantissa (l : List Char) : Option (ℚ × List Char) :=
  let p1 := l.span Char.isDigit
  match p1.2 with
  | '.' :: t =>
      let p2 := t.span Char.isDigit
      if p1.1.isEmpty && p2.1.isEmpty then none
      else some ((digitsToNat p1.1 : ℚ) + (digitsToNat p2.1 : ℚ) / (10 : ℚ) ^ p2.1.length, p2.2)
  | _ => if p1.1.isEmpty then none else some ((digitsToNat p1.1 : ℚ), p1.2)

/-- Optional exponent following the mantissa. -/
def applyExp (q : ℚ) (rest : List Char) : ℚ :=
  match rest with
  | 'e' :: t => q * (10 : ℚ) ^ parseExpPart t
  | 'E' :: t => q * (10 : ℚ) ^ parseExpPart t
  | _ => q

/-- Body of parseFloat after the optional sign: the Infinity keyword or a
decimal literal; anything else is NaN. -/
def parseAfterSign (t : List Char) (neg : Bool) : JsNum :=
  match t with
  | 'I' :: 'n' :: 'f' :: 'i' :: 'n' :: 'i' :: 't' :: 'y' :: _ =>
      if neg then JsNum.negInf else JsNum.inf
  | _ =>
      match parseMantissa t with
      | none => JsNum.nan
      | some p => JsNum.val (if neg then -(applyExp p.1 p.2) else applyExp p.1 p.2)

/-- JS parseFloat: skip leading whitespace, optional sign, then the longest
valid decimal literal or Infinity; NaN when none exists.  Values are exact
rationals (double rounding is not modelled; the claims do not depend on
it). -/
def parseFloat (s : String) : JsNum :=
  match s.toList.dropWhile (fun c => c.isWhitespace) with
  | '+' :: t => parseAfterSign t false
  | '-' :: t => parseAfterSign t true
  | t => parseAfterSign t false

/-- Leading match of a pattern against a character list. -/
def matchesAt : List Char → List Char → Bool
  | [], _ => true
  | _ :: _, [] => false
  | p :: ps, c :: cs => p == c && matchesAt ps cs

/-- Substring occurrence anywhere in a character list. -/
def hasSubList (pat : List Char) : List Char → Bool
  | [] => pat.isEmpty
  | c :: rest => matchesAt pat (c :: rest) || hasSubList pat rest

/-- JS String.prototype.includes. -/
def containsSub (s pat : String) : Bool := hasSubList pat.toList s.toList

/-- JS toLowerCase, per character (the data is ASCII). -/
def lowerStr (s : String) : String := (s.toList.map Char.toLower).asString

/-- JS String.prototype.trim: whitespace removed from both ends. -/
def trimStr (s : String) : String :=
  (((s.toList.dropWhile Char.isWhitespace).reverse.dropWhile Char.isWhitespace).reverse).asString

/-- Split on every occurrence of a separator character. -/
def splitOnChar (sep : Char) : List Char → List Char → List String
  | [], cur => [cur.reverse.asString]
  | c :: rest, cur =>
      if c = sep then cur.reverse.asString :: splitOnChar sep rest []
      else splitOnChar sep rest (c :: cur)

/-- Quote parity split of line 101: a comma splits exactly when the number
of double quotes after it (to the end of the line) is even. -/
def splitCsvList : List Char → List Char → List String
  | [], cur => [cur.reverse.asString]
  | c :: rest, cur =>
      if c = ',' ∧ (rest.countP (fun x => x == '"')) % 2 = 0 then
        cur.reverse.asString :: splitCsvList rest []
      else
        splitCsvList rest (c :: cur)

/-- Field split of a CSV line on commas outside double quotes. -/
def splitCsvLine (s : String) : List String := splitCsvList s.toList []

/-- JS replace of the pattern anchored-quote-or-final-quote: remove one
leading and one trailing double quote when present. -/
def stripEdgeQuotes (s : String) : String :=
  let l1 :=
    match s.toList with
    | '"' :: t => t
    | l => l
  let l2 := if l1.getLast? = some '"' then l1.dropLast else l1
  l2.asString

/-- Comma removal of line 123 (thousands separators). -/
def stripCommas (s : String) : String :=
  (s.toList.filter (fun c => c != ',')).asString

/-- Strict ISO test of line 132: exactly four digits, dash, two digits,
dash, two digits. -/
def isIsoFormat (s : String) : Bool :=
  match s.toList with
  | [a, b, c, d, '-', e, f, '-', g, h] =>
      a.isDigit && b.isDigit && c.isDigit && d.isDigit &&
      e.isDigit && f.isDigit && g.isDigit && h.isDigit
  | _ => false

/-- Ledger entry admitted by the CSV import.  The id field of the source is
a wall-clock value outside the model; the amount keeps the full JS number
range that parseFloat can produce. -/
structure CsvTx where
  date : String
  type : TxType
  amount : JsNum
  institution : String
deriving DecidableEq

/-- Outcome of one CSV line in the loop body of lines 103-155. -/
inductive LineResult where
  | skipped
  | formatErr
  | amountErr (raw : String)
  | dateErr (raw : String)
  | ok (tx : CsvTx)
deriving DecidableEq

/-- Header skip of lines 94-97: start at index 1 exactly when the whole
first line contains the substring date, case-insensitively. -/
def headerStart (lines : List String) : ℕ :=
  if containsSub (lowerStr (lines.headD "")) "date" then 1 else 0

/-- Loop body for one line (lines 103-155).  The general calendar-date parse
of line 136 (new Date on a non-ISO string) is host behaviour and is taken as
an oracle argument: it returns the re-rendered YYYY-MM-DD string, or none
when the host cannot parse the date. -/
def processLine (dateOracle : String → Option String) (line : String) : LineResult :=
  if trimStr line = "" then LineResult.skipped
  else
    match (splitCsvLine (trimStr line)).map (fun c => stripEdgeQuotes (trimStr c)) with
    | dateRaw :: typeRaw :: amountRaw :: restCols =>
        let ty := if containsSub (lowerStr typeRaw) "withdraw" then TxType.WITHDRAWAL
                  else TxType.CONTRIBUTION
        let amount := parseFloat (stripCommas amountRaw)
        if jsIsNaN amount || jsLeZero amount then LineResult.amountErr amountRaw
        else
          let institution := restCols.headD ""
          let inst := if institution = "" then "Imported" else institution
          if isIsoFormat dateRaw then LineResult.ok ⟨dateRaw, ty, amount, inst⟩
          else
            match dateOracle dateRaw with
            | some iso => LineResult.ok ⟨iso, ty, amount, inst⟩
            | none => LineResult.dateErr dateRaw
    | _ => LineResult.formatErr

/-- Error message for one line: i is the 0-based index into the split lines,
as in the template literals of lines 110, 125 and 141. -/
def lineMsg (i : ℕ) (r : LineResult) : Option String :=
  match r with
  | LineResult.formatErr => some ("Line " ++ toString (i + 1) ++ ": Invalid format")
  | LineResult.amountErr raw => some ("Line " ++ toString (i + 1) ++ ": Invalid amount: " ++ raw)
  | LineResult.dateErr raw => some ("Line " ++ toString (i + 1) ++ ": Invalid date: " ++ raw)
  | _ => none

/-- Admitted transaction of one line, when any. -/
def lineTx (r : LineResult) : Option CsvTx :=
  match r with
  | LineResult.ok tx => some tx
  | _ => none

/-- Batch outcome: admitted transactions and per-line error messages, both
in input order. -/
structure CsvOutcome where
  added : List CsvTx
  errors : List String
deriving DecidableEq

/-- Index-carrying loop over the lines from startIndex on (lines 103-155). -/
def csvLoop (dateOracle : String → Option String) : ℕ → List String → CsvOutcome
  | _, [] => { added := [], errors := [] }
  | i, line :: rest =>
      let r := processLine dateOracle line
      let out := csvLoop dateOracle (i + 1) rest
      { added := (lineTx r).toList ++ out.added
        errors := (lineMsg i r).toList ++ out.errors }

/-- Line split of line 89 (split on every newline). -/
def splitLines (text : String) : List String := splitOnChar (Char.ofNat 10) text.toList []

/-- The CSV batch import processCsvData (lines 88-170): split into lines,
optionally skip a header, process every remaining line independently. -/
def processCsvData (dateOracle : String → Option String) (text : String) : CsvOutcome :=
  let lines := splitLines text
  csvLoop dateOracle (headerStart lines) (lines.drop (headerStart lines))

/-! ### Helper lemmas about single transactions -/

theorem applyTx_contribution (s : SimState) (tx : Tx) (h : tx.type = TxType.CONTRIBUTION) :
    (applyTx s tx).totalContributions = s.totalContributions + tx.amount ∧
    (applyTx s tx).totalWithdrawals = s.totalWithdrawals ∧
    (tx.amount ≤ s.unusedRoom →
      (applyTx s tx).unusedRoom = s.unusedRoom - tx.amount ∧
      (applyTx s tx).excess = s.excess) ∧
    (s.unusedRoom < tx.amount →
      (applyTx s tx).excess = s.excess + (tx.amount - s.unusedRoom) ∧
      (applyTx s tx).unusedRoom = 0) := by
  simp only [applyTx, h]
  split
  · refine ⟨rfl, rfl, fun _ => ⟨rfl, rfl⟩, fun hlt => absurd ?_ hlt.not_le⟩
    assumption
  · rename_i hge
    exact ⟨rfl, rfl, fun hle => absurd hle hge, fun _ => ⟨rfl, rfl⟩⟩

theorem applyTx_withdrawal (s : SimState) (tx : Tx) (h : tx.type = TxType.WITHDRAWAL)
    (hε : 0 ≤ s.excess) (ha : 0 ≤ tx.amount) :
    (applyTx s tx).totalWithdrawals = s.totalWithdrawals + tx.amount ∧
    (applyTx s tx).totalContributions = s.totalContributions ∧
    (applyTx s tx).excess = s.excess - min s.excess tx.amount ∧
    (applyTx s tx).unusedRoom = s.unusedRoom := by
  simp only [applyTx, h]
  split
  · split
    · rename_i hge
      exact ⟨rfl, rfl, by rw [min_eq_right hge], rfl⟩
    · rename_i hlt
      refine ⟨rfl, rfl, ?_, rfl⟩
      rw [min_eq_left (le_of_not_le hlt)]
      ring
  · rename_i hpos
    have hz : s.excess = 0 := le_antisymm (le_of_not_lt hpos) hε
    refine ⟨rfl, rfl, ?_, rfl⟩
    rw [hz, min_eq_left ha]
    ring

theorem applyTx_excess_nonneg (s : SimState) (tx : Tx) (h : 0 ≤ s.excess) :
    0 ≤ (applyTx s tx).excess := by
  unfold applyTx
  cases tx.type <;> dsimp only
  · split
    · exact h
    · rename_i hlt
      have : (0 : ℚ) ≤ tx.amount - s.unusedRoom := by
        have := lt_of_not_le hlt
        linarith
      simpa using by linarith
  · split
    · split
      · rename_i hge; dsimp only; linarith
      · exact le_refl 0
    · exact h

theorem applyTx_unusedRoom_nonneg (s : SimState) (tx : Tx) (h : 0 ≤ s.unusedRoom) :
    0 ≤ (applyTx s tx).unusedRoom := by
  unfold applyTx
  cases tx.type <;> dsimp only
  · split
    · rename_i hge; dsimp only; linarith
    · exact le_refl 0
  · split
    · split <;> exact h
    · exact h

theorem applyTx_unusedRoom_le (s : SimState) (tx : Tx) (h : 0 ≤ s.unusedRoom)
    (ha : 0 ≤ tx.amount) : (applyTx s tx).unusedRoom ≤ s.unusedRoom := by
  unfold applyTx
  cases tx.type <;> dsimp only
  · split
    · dsimp only; linarith
    · exact h
  · split
    · split <;> exact le_refl _
    · exact le_refl _

/-! ### Helper lemmas about one day of the loop -/

theorem applyDay_split (dateStr : String) :
    ∀ (s : SimState) (l : List Tx),
      (applyDay dateStr s l).2.1 ++ (applyDay dateStr s l).2.2 = l := by
  intro s l
  induction l generalizing s with
  | nil => simp [applyDay]
  | cons tx rest ih =>
      by_cases h : tx.date = dateStr
      · simp [applyDay, h, ih]
      · simp [applyDay, h]

theorem applyDay_applied_date (dateStr : String) :
    ∀ (s : SimState) (l : List Tx) (t : Tx),
      t ∈ (applyDay dateStr s l).2.1 → t.date = dateStr := by
  intro s l
  induction l generalizing s with
  | nil => simp [applyDay]
  | cons tx rest ih =>
      intro t ht
      by_cases h : tx.date = dateStr
      · simp only [applyDay, if_pos h, List.mem_cons] at ht
        rcases ht with rfl | ht
        · exact h
        · exact ih _ _ ht
      · simp [applyDay, if_neg h] at ht

theorem applyDay_blocked (dateStr : String) (s : SimState) (l : List Tx)
    (h : ∀ t, l.head? = some t → t.date ≠ dateStr) :
    applyDay dateStr s l = (s, [], l) := by
  cases l with
  | nil => rfl
  | cons tx rest =>
      have hne : tx.date ≠ dateStr := h tx rfl
      simp [applyDay, hne]

theorem applyDay_excess_nonneg (dateStr : String) :
    ∀ (s : SimState) (l : List Tx), 0 ≤ s.excess →
      0 ≤ (applyDay dateStr s l).1.excess := by
  intro s l
  induction l generalizing s with
  | nil => intro h; simpa [applyDay] using h
  | cons tx rest ih =>
      intro h
      by_cases hd : tx.date = dateStr
      · simpa [applyDay, hd] using ih (applyTx s tx) (applyTx_excess_nonneg s tx h)
      · simpa [applyDay, hd] using h

theorem applyDay_unusedRoom_nonneg (dateStr : String) :
    ∀ (s : SimState) (l : List Tx), 0 ≤ s.unusedRoom →
      0 ≤ (applyDay dateStr s l).1.unusedRoom := by
  intro s l
  induction l generalizing s with
  | nil => intro h; simpa [applyDay] using h
  | cons tx rest ih =>
      intro h
      by_cases hd : tx.date = dateStr
      · simpa [applyDay, hd] using ih (applyTx s tx) (applyTx_unusedRoom_nonneg s tx h)
      · simpa [applyDay, hd] using h

theorem applyDay_unusedRoom_le (dateStr : String) :
    ∀ (s : SimState) (l : List Tx), 0 ≤ s.unusedRoom → (∀ t ∈ l, 0 ≤ t.amount) →
      (applyDay dateStr s l).1.unusedRoom ≤ s.unusedRoom := by
  intro s l
  induction l generalizing s with
  | nil => intro _ _; simp [applyDay]
  | cons tx rest ih =>
      intro h hl
      by_cases hd : tx.date = dateStr
      · have h1 := applyTx_unusedRoom_le s tx h (hl tx (List.mem_cons_self tx rest))
        have h2 := ih (applyTx s tx) (applyTx_unusedRoom_nonneg s tx h)
          (fun t ht => hl t (List.mem_cons_of_mem tx ht))
        simp only [applyDay, if_pos hd]
        exact le_trans h2 h1
      · simp [applyDay, hd]

/-! ### Facts about the generated day list and date strings -/

theorem monthLength_le_31 (y m : ℕ) : monthLength y m ≤ 31 := by
  unfold monthLength
  split_ifs <;> omega

theorem monthLength_pos (y m : ℕ) : 1 ≤ monthLength y m := by
  unfold monthLength
  split_ifs <;> omega

theorem days_month_lt_12 (year : ℕ) : ∀ p ∈ daysOfYear year, p.1 < 12 := by
  intro p hp
  simp only [daysOfYear, List.mem_flatMap, List.mem_map, List.mem_range] at hp
  obtain ⟨m, hm, d, _, rfl⟩ := hp
  exact hm

theorem days_month_exists (year : ℕ) (i : ℕ) (hi : i < 12) :
    ∃ s, (i, s) ∈ daysOfYear year := by
  refine ⟨dateString (utcFullYear year) (i + 1) 1, ?_⟩
  simp only [daysOfYear, List.mem_flatMap, List.mem_map, List.mem_range]
  exact ⟨i, hi, 0, monthLength_pos _ _, rfl⟩

theorem lex_of_append (p : List Char) {a b : List Char}
    (h : List.Lex (· < ·) (p ++ a) (p ++ b)) : List.Lex (· < ·) a b := by
  induction p with
  | nil => exact h
  | cons c t ih => exact ih (List.Lex.cons_iff.mp h)

theorem list_le_append_left (p : List Char) {a b : List Char} (h : a ≤ b) :
    p ++ a ≤ p ++ b := by
  by_contra hc
  have hlt : p ++ b < p ++ a := not_le.mp hc
  have hba : List.Lex (· < ·) b a := lex_of_append p hlt
  exact absurd (hba : b < a) (not_lt.mpr h)

theorem day_suffix_le : ∀ m ∈ List.range 12, ∀ d ∈ List.range 31,
    ("-01-01" : String).toList ≤ ("-" ++ pad2 (m + 1) ++ "-" ++ pad2 (d + 1)).toList := by
  decide

theorem jan1_le_dayStr (year : ℕ) :
    ∀ p ∈ daysOfYear year, dateString (utcFullYear year) 1 1 ≤ p.2 := by
  intro p hp
  simp only [daysOfYear, List.mem_flatMap, List.mem_map, List.mem_range] at hp
  obtain ⟨m, hm, d, hd, rfl⟩ := hp
  have hd31 : d < 31 := lt_of_lt_of_le hd (monthLength_le_31 _ _)
  have key := day_suffix_le m (List.mem_range.mpr hm) d (List.mem_range.mpr hd31)
  rw [String.le_iff_toList_le]
  simp only [dateString, String.toList, String.data_append] at key ⊢
  have h1 : pad2 1 = "01" := rfl
  rw [h1]
  have key2 : (['-', '0', '1', '-', '0', '1'] : List Char) ≤
      '-' :: ((pad2 (m + 1)).data ++ '-' :: (pad2 (d + 1)).data) := by simpa using key
  simpa using list_le_append_left (toString (utcFullYear year)).data key2

/-! ### Helper lemmas about the daily loop -/

theorem foldl_applied_pending :
    ∀ (days : List (ℕ × String)) (st : LoopState),
      (days.foldl dayStep st).applied ++ (days.foldl dayStep st).pending =
        st.applied ++ st.pending := by
  intro days
  induction days with
  | nil => intro st; rfl
  | cons day rest ih =>
      intro st
      rw [List.foldl_cons, ih]
      show st.applied ++ (applyDay day.2 st.sim st.pending).2.1 ++
        (applyDay day.2 st.sim st.pending).2.2 = _
      rw [List.append_assoc, applyDay_split]

theorem foldl_monthlyMax_length :
    ∀ (days : List (ℕ × String)) (st : LoopState),
      (days.foldl dayStep st).monthlyMax.length = st.monthlyMax.length := by
  intro days
  induction days with
  | nil => intro st; rfl
  | cons day rest ih =>
      intro st
      rw [List.foldl_cons, ih]
      simp [dayStep]

theorem foldl_vizDates :
    ∀ (days : List (ℕ × String)) (st : LoopState),
      (days.foldl dayStep st).vizDates = st.vizDates ++ days.map Prod.snd := by
  intro days
  induction days with
  | nil => intro st; simp
  | cons day rest ih =>
      intro st
      rw [List.foldl_cons, ih]
      simp [dayStep]

theorem foldl_applied_mem :
    ∀ (days : List (ℕ × String)) (st : LoopState) (t : Tx),
      t ∈ (days.foldl dayStep st).applied →
      t ∈ st.applied ∨ ∃ day ∈ days, t.date = day.2 := by
  intro days
  induction days with
  | nil => intro st t ht; exact Or.inl ht
  | cons day rest ih =>
      intro st t ht
      rcases ih (dayStep st day) t ht with h | ⟨d, hd, hdate⟩
      · have h2 : t ∈ st.applied ++ (applyDay day.2 st.sim st.pending).2.1 := h
        rcases List.mem_append.mp h2 with h3 | h3
        · exact Or.inl h3
        · exact Or.inr ⟨day, List.mem_cons_self _ _,
            applyDay_applied_date day.2 st.sim st.pending t h3⟩
      · exact Or.inr ⟨d, List.mem_cons_of_mem _ hd, hdate⟩

theorem foldl_vizExcess :
    ∀ (days : List (ℕ × String)) (st : LoopState),
      (days.foldl dayStep st).vizExcess = st.vizExcess ++ (excessTrace st days).map Prod.snd := by
  intro days
  induction days with
  | nil => intro st; simp [excessTrace]
  | cons day rest ih =>
      intro st
      rw [List.foldl_cons, ih, excessTrace]
      show (st.vizExcess ++ _) ++ _ = _
      simp [dayStep]

theorem excessTrace_fst :
    ∀ (days : List (ℕ × String)) (st : LoopState),
      (excessTrace st days).map Prod.fst = days.map Prod.fst := by
  intro days
  induction days with
  | nil => intro st; rfl
  | cons day rest ih =>
      intro st
      simp [excessTrace, ih]

theorem excessTrace_nonneg :
    ∀ (days : List (ℕ × String)) (st : LoopState), 0 ≤ st.sim.excess →
      ∀ p ∈ excessTrace st days, 0 ≤ p.2 := by
  intro days
  induction days with
  | nil => intro st _ p hp; simp [excessTrace] at hp
  | cons day rest ih =>
      intro st h p hp
      have hstep : 0 ≤ (dayStep st day).sim.excess :=
        applyDay_excess_nonneg day.2 st.sim st.pending h
      simp only [excessTrace, List.mem_cons] at hp
      rcases hp with rfl | hp
      · exact hstep
      · exact ih (dayStep st day) hstep p hp

theorem getD_set_self (l : List ℚ) (i : ℕ) (h : i < l.length) (v : ℚ) :
    (l.set i v).getD i 0 = v := by
  rw [List.getD_eq_getElem?_getD, List.getElem?_set_self h]
  rfl

theorem getD_set_ne (l : List ℚ) {i j : ℕ} (h : i ≠ j) (v : ℚ) :
    (l.set i v).getD j 0 = l.getD j 0 := by
  rw [List.getD_eq_getElem?_getD, List.getElem?_set_ne h, ← List.getD_eq_getElem?_getD]

theorem foldl_monthlyMax_getD :
    ∀ (days : List (ℕ × String)) (st : LoopState) (i : ℕ),
      i < st.monthlyMax.length → (∀ d ∈ days, d.1 < st.monthlyMax.length) →
      (days.foldl dayStep st).monthlyMax.getD i 0 =
        ((excessTrace st days).filterMap
            (fun p => if p.1 = i then some p.2 else none)).foldl max (st.monthlyMax.getD i 0) := by
  intro days
  induction days with
  | nil => intro st i _ _; simp [excessTrace]
  | cons day rest ih =>
      intro st i hi hdays
      have hday : day.1 < st.monthlyMax.length := hdays day (List.mem_cons_self _ _)
      have hlen : (dayStep st day).monthlyMax.length = st.monthlyMax.length := by
        simp [dayStep]
      rw [List.foldl_cons, ih (dayStep st day) i (by rw [hlen]; exact hi)
        (fun d hd => by rw [hlen]; exact hdays d (List.mem_cons_of_mem _ hd))]
      rw [excessTrace]
      by_cases hcase : day.1 = i
      · subst hcase
        have hset : (dayStep st day).monthlyMax.getD day.1 0 =
            max (st.monthlyMax.getD day.1 0) (dayStep st day).sim.excess := by
          show (st.monthlyMax.set day.1 _).getD day.1 0 = _
          exact getD_set_self st.monthlyMax day.1 hday _
        rw [hset]
        simp [List.filterMap_cons]
      · have hset : (dayStep st day).monthlyMax.getD i 0 = st.monthlyMax.getD i 0 := by
          show (st.monthlyMax.set day.1 _).getD i 0 = _
          exact getD_set_ne st.monthlyMax hcase _
        rw [hset]
        simp [List.filterMap_cons, hcase]

theorem zip_filterMap_trace (i : ℕ) :
    ∀ (days : List (ℕ × String)) (st : LoopState),
      ((days.zip ((excessTrace st days).map Prod.snd)).filterMap
          (fun p => if p.1.1 = i then some p.2 else none)) =
        (excessTrace st days).filterMap (fun p => if p.1 = i then some p.2 else none) := by
  intro days
  induction days with
  | nil => intro st; rfl
  | cons day rest ih =>
      intro st
      rw [excessTrace]
      simp only [List.map_cons, List.zip_cons_cons, List.filterMap_cons]
      by_cases hcase : day.1 = i
      · simp [hcase, ih (dayStep st day)]
      · simp [hcase, ih (dayStep st day)]

/-! ### Maximum helpers -/

theorem le_foldl_max_init (l : List ℚ) (a : ℚ) : a ≤ l.foldl max a := by
  induction l generalizing a with
  | nil => exact le_refl a
  | cons x t ih =>
      rw [List.foldl_cons]
      exact le_trans (le_max_left a x) (ih (max a x))

theorem le_foldl_max_mem (l : List ℚ) (a x : ℚ) (hx : x ∈ l) : x ≤ l.foldl max a := by
  induction l generalizing a with
  | nil => simp at hx
  | cons y t ih =>
      rw [List.foldl_cons]
      rcases List.mem_cons.mp hx with rfl | hx
      · exact le_trans (le_max_right a x) (le_foldl_max_init t (max a x))
      · exact ih (max a y) hx

theorem foldl_max_choice (l : List ℚ) (a : ℚ) : l.foldl max a = a ∨ l.foldl max a ∈ l := by
  induction l generalizing a with
  | nil => exact Or.inl rfl
  | cons x t ih =>
      rw [List.foldl_cons]
      rcases ih (max a x) with h | h
      · rcases max_choice a x with hm | hm
        · exact Or.inl (h.trans hm)
        · exact Or.inr (List.mem_cons.mpr (Or.inl (h.trans hm)))
      · exact Or.inr (List.mem_cons_of_mem x h)

theorem jsMaxList_is_ub (l : List ℚ) (x : ℚ) (hx : x ∈ l) : x ≤ jsMaxList l := by
  cases l with
  | nil => simp at hx
  | cons h t =>
      rcases List.mem_cons.mp hx with rfl | hx
      · exact le_foldl_max_init t x
      · exact le_foldl_max_mem t h x hx

theorem jsMaxList_mem (l : List ℚ) (hl : l ≠ []) : jsMaxList l ∈ l := by
  cases l with
  | nil => exact absurd rfl hl
  | cons h t =>
      rcases foldl_max_choice t h with hc | hc
      · exact List.mem_cons.mpr (Or.inl hc)
      · exact List.mem_cons_of_mem h hc

/-! ### Sort stability helpers -/

theorem filter_orderedInsert_pos (d : String) (a : Tx) (had : a.date = d) :
    ∀ l : List Tx,
      (List.orderedInsert txLe a l).filter (fun t => decide (t.date = d)) =
        a :: l.filter (fun t => decide (t.date = d)) := by
  intro l
  induction l with
  | nil => simp [had]
  | cons b t ih =>
      by_cases hr : txLe a b
      · rw [List.orderedInsert, if_pos hr]
        simp [List.filter_cons, had]
      · rw [List.orderedInsert, if_neg hr]
        have hbd : ¬ b.date = d := by
          intro hbd
          exact hr (le_of_eq (had.trans hbd.symm))
        simp [List.filter_cons, hbd, ih]

theorem filter_orderedInsert_neg (d : String) (a : Tx) (had : ¬ a.date = d) :
    ∀ l : List Tx,
      (List.orderedInsert txLe a l).filter (fun t => decide (t.date = d)) =
        l.filter (fun t => decide (t.date = d)) := by
  intro l
  induction l with
  | nil => simp [had]
  | cons b t ih =>
      by_cases hr : txLe a b
      · rw [List.orderedInsert, if_pos hr]
        simp [List.filter_cons, had]
      · rw [List.orderedInsert, if_neg hr]
        simp only [List.filter_cons, ih]

theorem filter_sortTxs (d : String) (l : List Tx) :
    (sortTxs l).filter (fun t => decide (t.date = d)) =
      l.filter (fun t => decide (t.date = d)) := by
  unfold sortTxs
  induction l with
  | nil => rfl
  | cons a t ih =>
      rw [List.insertionSort]
      by_cases had : a.date = d
      · rw [filter_orderedInsert_pos d a had, ih]
        simp [List.filter_cons, had]
      · rw [filter_orderedInsert_neg d a had, ih]
        simp [List.filter_cons, had]

/-! ### Blocked-pointer helpers -/

theorem dayStep_blocked (st : LoopState) (day : ℕ × String)
    (h : ∀ t, st.pending.head? = some t → t.date ≠ day.2) :
    dayStep st day =
      { st with
        monthlyMax := st.monthlyMax.set day.1 (max (st.monthlyMax.getD day.1 0) st.sim.excess)
        vizDates := st.vizDates ++ [day.2]
        vizExcess := st.vizExcess ++ [st.sim.excess] } := by
  have e := applyDay_blocked day.2 st.sim st.pending h
  simp [dayStep, e]

theorem foldl_blocked_agree :
    ∀ (days : List (ℕ × String)) (st₁ st₂ : LoopState),
      st₁.sim = st₂.sim → st₁.monthlyMax = st₂.monthlyMax →
      st₁.vizDates = st₂.vizDates → st₁.vizExcess = st₂.vizExcess →
      (∀ d ∈ days, ∀ t, st₁.pending.head? = some t → t.date ≠ d.2) →
      (∀ d ∈ days, ∀ t, st₂.pending.head? = some t → t.date ≠ d.2) →
      (days.foldl dayStep st₁).sim = (days.foldl dayStep st₂).sim ∧
      (days.foldl dayStep st₁).monthlyMax = (days.foldl dayStep st₂).monthlyMax ∧
      (days.foldl dayStep st₁).vizDates = (days.foldl dayStep st₂).vizDates ∧
      (days.foldl dayStep st₁).vizExcess = (days.foldl dayStep st₂).vizExcess := by
  intro days
  induction days with
  | nil =>
      intro st₁ st₂ hsim hmax hvd hve _ _
      exact ⟨hsim, hmax, hvd, hve⟩
  | cons day rest ih =>
      intro st₁ st₂ hsim hmax hvd hve h₁ h₂
      rw [List.foldl_cons, List.foldl_cons,
        dayStep_blocked st₁ day (h₁ day (List.mem_cons_self _ _)),
        dayStep_blocked st₂ day (h₂ day (List.mem_cons_self _ _))]
      apply ih
      · exact hsim
      · simp [hsim, hmax]
      · simp [hvd]
      · simp [hsim, hve]
      · intro d hd t ht
        exact h₁ d (List.mem_cons_of_mem _ hd) t ht
      · intro d hd t ht
        exact h₂ d (List.mem_cons_of_mem _ hd) t ht

/-! ### Invariant helpers for the state sequence -/

theorem applyDay_pending_subset (dateStr : String) (s : SimState) (l : List Tx) :
    ∀ t ∈ (applyDay dateStr s l).2.2, t ∈ l := by
  intro t ht
  rw [← applyDay_split dateStr s l]
  exact List.mem_append_right _ ht

theorem scanl_head (f : LoopState → (ℕ × String) → LoopState) (b : LoopState)
    (l : List (ℕ × String)) : (List.scanl f b l).head? = some b := by
  cases l <;> simp [List.scanl_cons, List.scanl_nil]

theorem scanl_inv_chain :
    ∀ (days : List (ℕ × String)) (st : LoopState),
      0 ≤ st.sim.excess → 0 ≤ st.sim.unusedRoom → (∀ t ∈ st.pending, 0 < t.amount) →
      (List.scanl dayStep st days).Forall
          (fun s => 0 ≤ s.sim.excess ∧ 0 ≤ s.sim.unusedRoom) ∧
      List.Chain' (fun a b => b.sim.unusedRoom ≤ a.sim.unusedRoom)
          (List.scanl dayStep st days) := by
  intro days
  induction days with
  | nil =>
      intro st he hu _
      rw [List.scanl_nil]
      exact ⟨⟨he, hu⟩, List.chain'_singleton st⟩
  | cons day rest ih =>
      intro st he hu hpend
      have hamt : ∀ t ∈ st.pending, (0 : ℚ) ≤ t.amount :=
        fun t ht => le_of_lt (hpend t ht)
      have he' : 0 ≤ (dayStep st day).sim.excess :=
        applyDay_excess_nonneg day.2 st.sim st.pending he
      have hu' : 0 ≤ (dayStep st day).sim.unusedRoom :=
        applyDay_unusedRoom_nonneg day.2 st.sim st.pending hu
      have hle : (dayStep st day).sim.unusedRoom ≤ st.sim.unusedRoom :=
        applyDay_unusedRoom_le day.2 st.sim st.pending hu hamt
      have hpend' : ∀ t ∈ (dayStep st day).pending, 0 < t.amount :=
        fun t ht => hpend t (applyDay_pending_subset day.2 st.sim st.pending t ht)
      obtain ⟨hfa, hch⟩ := ih (dayStep st day) he' hu' hpend'
      constructor
      · rw [List.scanl_cons, List.singleton_append]
        exact List.forall_cons _ st _ |>.mpr ⟨⟨he, hu⟩, hfa⟩
      · rw [List.scanl_cons, List.singleton_append]
        refine List.chain'_cons'.mpr ⟨?_, hch⟩
        intro y hy
        rw [scanl_head] at hy
        cases hy
        exact hle

/-! ### Claim theorems -/

/-- C1: for every transaction applied by calculatePenalty, a CONTRIBUTION of
amount a adds a to cumulative contributions and either consumes room
(unusedRoom >= a: room drops by a, excess unchanged) or spills
(excess grows by a - unusedRoom and unusedRoom becomes 0); a WITHDRAWAL of
amount a adds a to cumulative withdrawals, lowers excess by
min(excess, a) (discarding any remainder) and leaves unusedRoom unchanged. -/
theorem spec_C1 (s : SimState) (tx : Tx) :
    (tx.type = TxType.CONTRIBUTION →
      (applyTx s tx).totalContributions = s.totalContributions + tx.amount ∧
      (applyTx s tx).totalWithdrawals = s.totalWithdrawals ∧
      (tx.amount ≤ s.unusedRoom →
        (applyTx s tx).unusedRoom = s.unusedRoom - tx.amount ∧
        (applyTx s tx).excess = s.excess) ∧
      (s.unusedRoom < tx.amount →
        (applyTx s tx).excess = s.excess + (tx.amount - s.unusedRoom) ∧
        (applyTx s tx).unusedRoom = 0)) ∧
    (tx.type = TxType.WITHDRAWAL → 0 ≤ s.excess → 0 ≤ tx.amount →
      (applyTx s tx).totalWithdrawals = s.totalWithdrawals + tx.amount ∧
      (applyTx s tx).totalContributions = s.totalContributions ∧
      (applyTx s tx).excess = s.excess - min s.excess tx.amount ∧
      (applyTx s tx).unusedRoom = s.unusedRoom) := by
  exact ⟨fun h => applyTx_contribution s tx h, fun h he ha => applyTx_withdrawal s tx h he ha⟩

theorem spec_C1_witness :
    ((applyTx ⟨2, 10, 0, 0⟩ ⟨"2024-01-05", TxType.CONTRIBUTION, 4⟩).unusedRoom = 10 - 4 ∧
     (applyTx ⟨2, 10, 0, 0⟩ ⟨"2024-01-05", TxType.CONTRIBUTION, 4⟩).excess = 2) ∧
    (applyTx ⟨2, 10, 0, 0⟩ ⟨"2024-01-06", TxType.WITHDRAWAL, 5⟩).excess = 2 - min 2 5 ∧
    (applyTx ⟨2, 10, 0, 0⟩ ⟨"2024-01-06", TxType.WITHDRAWAL, 5⟩).unusedRoom = 10 := by
  refine ⟨((spec_C1 ⟨2, 10, 0, 0⟩ ⟨"2024-01-05", TxType.CONTRIBUTION, 4⟩).1 rfl).2.2.1
    (by norm_num), ?_, ?_⟩
  · exact ((spec_C1 ⟨2, 10, 0, 0⟩ ⟨"2024-01-06", TxType.WITHDRAWAL, 5⟩).2 rfl
      (by norm_num) (by norm_num)).2.2.1
  · exact ((spec_C1 ⟨2, 10, 0, 0⟩ ⟨"2024-01-06", TxType.WITHDRAWAL, 5⟩).2 rfl
      (by norm_num) (by norm_num)).2.2.2

/-- C3: the state before any transaction is applied is initState; a negative
starting room becomes excess (absolute value) with no room, a non-negative
one becomes unusedRoom with no excess; with starting room -500 the initial
excess is 500 and the room 0. -/
theorem spec_C3 (year : ℕ) (startRoom : ℚ) (txs : List Tx) :
    (initLoop startRoom txs).sim = initState startRoom ∧
    (startRoom < 0 → (initState startRoom).excess = |startRoom| ∧
      (initState startRoom).unusedRoom = 0) ∧
    (0 ≤ startRoom → (initState startRoom).excess = 0 ∧
      (initState startRoom).unusedRoom = startRoom) ∧
    (initState (-500)).excess = 500 ∧ (initState (-500)).unusedRoom = 0 := by
  refine ⟨rfl, ?_, ?_, ?_, ?_⟩
  · intro h
    unfold initState
    rw [if_pos h]
    exact ⟨rfl, rfl⟩
  · intro h
    unfold initState
    rw [if_neg (not_lt.mpr h)]
    exact ⟨rfl, rfl⟩
  · norm_num [initState]
  · norm_num [initState]

theorem spec_C3_witness :
    ((-500 : ℚ) < 0) ∧ (initState (-500)).excess = |(-500 : ℚ)| ∧
    (initState (-500)).excess = 500 ∧ (initState (-500)).unusedRoom = 0 := by
  refine ⟨by norm_num, ((spec_C3 2024 (-500) []).2.1 (by norm_num)).1,
    (spec_C3 2024 (-500) []).2.2.2.1, (spec_C3 2024 (-500) []).2.2.2.2⟩

/-- C4: calculatePenalty applies a permutation of the ledger sorted
ascending by the date strings (the lexicographic string order), with a
stable tie-break: for every date, the transactions of that date keep their
original relative order, and the transactions actually applied are a prefix
of that sorted list (hence applied in sorted order). -/
theorem spec_C4 (year : ℕ) (startRoom : ℚ) (txs : List Tx) :
    (sortTxs txs).Perm txs ∧
    List.Sorted txLe (sortTxs txs) ∧
    (∀ a b : Tx, txLe a b ↔ a.date.toList ≤ b.date.toList) ∧
    (∀ d : String, (sortTxs txs).filter (fun t => decide (t.date = d)) =
      txs.filter (fun t => decide (t.date = d))) ∧
    ∃ n, appliedTxs year startRoom txs = (sortTxs txs).take n := by
  refine ⟨List.perm_insertionSort txLe txs, List.sorted_insertionSort txLe txs,
    fun a b => String.le_iff_toList_le, fun d => filter_sortTxs d txs, ?_⟩
  refine ⟨(appliedTxs year startRoom txs).length, ?_⟩
  have h2 : appliedTxs year startRoom txs ++ (runLoop year startRoom txs).pending =
      sortTxs txs := by
    simpa [appliedTxs, runLoop, initLoop] using
      foldl_applied_pending (daysOfYear year) (initLoop startRoom txs)
  rw [← h2, List.take_left]

/-- C6: when all ledger amounts are strictly positive, at the loop entry and
after every simulated day the state satisfies excess >= 0 and
unusedRoom >= 0, and unusedRoom never increases from one day to the next. -/
theorem spec_C6 (year : ℕ) (startRoom : ℚ) (txs : List Tx)
    (hpos : ∀ t ∈ txs, 0 < t.amount) :
    (dayStates year startRoom txs).Forall
        (fun st => 0 ≤ st.sim.excess ∧ 0 ≤ st.sim.unusedRoom) ∧
    List.Chain' (fun a b => b.sim.unusedRoom ≤ a.sim.unusedRoom)
        (dayStates year startRoom txs) := by
  have hpend : ∀ t ∈ (initLoop startRoom txs).pending, 0 < t.amount := by
    intro t ht
    exact hpos t ((List.perm_insertionSort txLe txs).mem_iff.mp ht)
  have he : 0 ≤ (initLoop startRoom txs).sim.excess := by
    show 0 ≤ (initState startRoom).excess
    unfold initState
    split_ifs with h
    · exact abs_nonneg _
    · exact le_refl 0
  have hu : 0 ≤ (initLoop startRoom txs).sim.unusedRoom := by
    show 0 ≤ (initState startRoom).unusedRoom
    unfold initState
    split_ifs with h
    · exact le_refl 0
    · exact not_lt.mp h
  exact scanl_inv_chain (daysOfYear year) (initLoop startRoom txs) he hu hpend

theorem spec_C6_witness :
    (∀ t ∈ ([] : List Tx), 0 < t.amount) ∧
    (dayStates 2024 100 []).Forall
        (fun st => 0 ≤ st.sim.excess ∧ 0 ≤ st.sim.unusedRoom) ∧
    List.Chain' (fun a b => b.sim.unusedRoom ≤ a.sim.unusedRoom)
        (dayStates 2024 100 []) := by
  have h := spec_C6 2024 100 [] (by simp)
  exact ⟨by simp, h.1, h.2⟩

/-- C5: the projection fields satisfy unusedRoomEndOfYear =
startingRoom - totalContributions, nextYearLimit = unusedRoomEndOfYear +
totalWithdrawals + nextAnnualLimit, where nextAnnualLimit is the table entry
for year + 1 (7000 when absent), and remainingRoom =
max(0, startingRoom - totalContributions), which depends only on the
contribution total (withdrawals never increase it). -/
theorem spec_C5 (year : ℕ) (startRoom : ℚ) (txs : List Tx) :
    (calculatePenalty year startRoom txs).unusedRoomEndOfYear =
      startRoom - (calculatePenalty year startRoom txs).totalContributions ∧
    (calculatePenalty year startRoom txs).nextYearLimit =
      (calculatePenalty year startRoom txs).unusedRoomEndOfYear +
      (calculatePenalty year startRoom txs).totalWithdrawals +
      (calculatePenalty year startRoom txs).nextAnnualLimit ∧
    (∀ v, ANNUAL_LIMITS (year + 1) = some v →
      (calculatePenalty year startRoom txs).nextAnnualLimit = v) ∧
    (ANNUAL_LIMITS (year + 1) = none →
      (calculatePenalty year startRoom txs).nextAnnualLimit = 7000) ∧
    (calculatePenalty year startRoom txs).remainingRoom =
      max 0 (startRoom - (calculatePenalty year startRoom txs).totalContributions) ∧
    (∀ txs₂, (calculatePenalty year startRoom txs₂).totalContributions =
        (calculatePenalty year startRoom txs).totalContributions →
      (calculatePenalty year startRoom txs₂).remainingRoom =
        (calculatePenalty year startRoom txs).remainingRoom) := by
  refine ⟨rfl, rfl, ?_, ?_, rfl, ?_⟩
  · intro v hv
    show jsOrQ (ANNUAL_LIMITS (year + 1)) 7000 = v
    rw [hv]
    unfold ANNUAL_LIMITS at hv
    split_ifs at hv <;> first
      | (cases hv; norm_num [jsOrQ])
      | simp at hv
  · intro h
    show jsOrQ (ANNUAL_LIMITS (year + 1)) 7000 = 7000
    rw [h]
    rfl
  · intro txs₂ heq
    have hr : ∀ t : List Tx, (calculatePenalty year startRoom t).remainingRoom =
        max 0 (startRoom - (calculatePenalty year startRoom t).totalContributions) :=
      fun _ => rfl
    rw [hr, hr, heq]

theorem spec_C5_witness :
    ANNUAL_LIMITS (2024 + 1) = some 7000 ∧
    (calculatePenalty 2024 0 []).nextAnnualLimit = 7000 ∧
    ANNUAL_LIMITS (2026 + 1) = none ∧
    (calculatePenalty 2026 0 []).nextAnnualLimit = 7000 := by
  refine ⟨by decide, (spec_C5 2024 0 []).2.2.1 7000 (by decide), by decide,
    (spec_C5 2026 0 []).2.2.2.1 (by decide)⟩

/-! ### Claim C2 -/

theorem getD_replicate_zero (n i : ℕ) : (List.replicate n (0 : ℚ)).getD i 0 = 0 := by
  rw [List.getD_eq_getElem?_getD, List.getElem?_replicate]
  split <;> rfl

theorem runLoop_monthlyMax_length (year : ℕ) (startRoom : ℚ) (txs : List Tx) :
    (runLoop year startRoom txs).monthlyMax.length = 12 := by
  rw [runLoop, foldl_monthlyMax_length]
  simp [initLoop]

theorem initState_excess_nonneg (r : ℚ) : 0 ≤ (initState r).excess := by
  unfold initState
  split_ifs
  · exact abs_nonneg _
  · exact le_refl 0

/-- C2: every monthly record has penalty = maxExcess / 100 and is affected
exactly when maxExcess > 0; totalPenalty is the sum of the monthly
penalties; peakExcess is the maximum of the monthly maxExcess values (an
upper bound that is attained); affectedMonths counts the months with
positive maxExcess; and each maxExcess is the high-water mark (upper bound,
attained) of the daily excess values of the days of that month, evaluated
after the transactions of each day. -/
theorem spec_C2 (year : ℕ) (startRoom : ℚ) (txs : List Tx) :
    (calculatePenalty year startRoom txs).monthlyDetails.length = 12 ∧
    (calculatePenalty year startRoom txs).monthlyDetails.Forall
      (fun rec => rec.penalty = rec.maxExcess * (1 / 100) ∧
        (rec.isAffected = true ↔ 0 < rec.maxExcess)) ∧
    (calculatePenalty year startRoom txs).totalPenalty =
      ((calculatePenalty year startRoom txs).monthlyDetails.map
        (fun rec => rec.penalty)).sum ∧
    (calculatePenalty year startRoom txs).monthlyDetails.Forall
      (fun rec => rec.maxExcess ≤ (calculatePenalty year startRoom txs).peakExcess) ∧
    (calculatePenalty year startRoom txs).peakExcess ∈
      (calculatePenalty year startRoom txs).monthlyDetails.map
        (fun rec => rec.maxExcess) ∧
    (calculatePenalty year startRoom txs).affectedMonths =
      (calculatePenalty year startRoom txs).monthlyDetails.countP
        (fun rec => decide (0 < rec.maxExcess)) ∧
    (List.range 12).Forall (fun i =>
      (monthVals year (calculatePenalty year startRoom txs).vizExcess i).Forall
        (fun v => v ≤
          ((calculatePenalty year startRoom txs).monthlyDetails.getD i default).maxExcess) ∧
      ((calculatePenalty year startRoom txs).monthlyDetails.getD i default).maxExcess ∈
        monthVals year (calculatePenalty year startRoom txs).vizExcess i) := by
  have hmax12 := runLoop_monthlyMax_length year startRoom txs
  have hdet : (calculatePenalty year startRoom txs).monthlyDetails =
      (runLoop year startRoom txs).monthlyMax.enum.map (fun p =>
        ({ month := MONTHS.getD p.1 ""
           maxExcess := p.2
           penalty := p.2 * (1 / 100)
           isAffected := decide ((0 : ℚ) < p.2) } : MonthlyRecord)) := rfl
  have hlen : (calculatePenalty year startRoom txs).monthlyDetails.length = 12 := by
    rw [hdet]
    simp [hmax12]
  have hmapmax : (calculatePenalty year startRoom txs).monthlyDetails.map
      (fun rec => rec.maxExcess) = (runLoop year startRoom txs).monthlyMax := by
    rw [hdet, List.map_map]
    exact List.enum_map_snd _
  refine ⟨hlen, ?_, ?_, ?_, ?_, ?_, ?_⟩
  · refine List.forall_iff_forall_mem.mpr ?_
    intro rec hrec
    rw [hdet] at hrec
    obtain ⟨p, _, rfl⟩ := List.mem_map.mp hrec
    exact ⟨rfl, by simp⟩
  · show ((runLoop year startRoom txs).monthlyMax.map (fun mx => mx * (1 / 100))).sum = _
    calc ((runLoop year startRoom txs).monthlyMax.map (fun mx => mx * (1 / 100))).sum
        = (((runLoop year startRoom txs).monthlyMax.enum.map Prod.snd).map
            (fun mx => mx * (1 / 100))).sum := by rw [List.enum_map_snd]
      _ = ((runLoop year startRoom txs).monthlyMax.enum.map
            ((fun mx => mx * (1 / 100)) ∘ Prod.snd)).sum := by rw [List.map_map]
      _ = ((calculatePenalty year startRoom txs).monthlyDetails.map
            (fun rec => rec.penalty)).sum := by
          rw [hdet, List.map_map]
          exact rfl
  · refine List.forall_iff_forall_mem.mpr ?_
    intro rec hrec
    show rec.maxExcess ≤ jsMaxList (runLoop year startRoom txs).monthlyMax
    refine jsMaxList_is_ub _ _ ?_
    rw [← hmapmax]
    exact List.mem_map_of_mem _ hrec
  · rw [hmapmax]
    refine jsMaxList_mem _ ?_
    intro hnil
    rw [hnil] at hmax12
    simp at hmax12
  · show (runLoop year startRoom txs).monthlyMax.countP (fun mx => decide (0 < mx)) = _
    conv_lhs => rw [← List.enum_map_snd ((runLoop year startRoom txs).monthlyMax),
      List.countP_map]
    rw [hdet, List.countP_map]
    rfl
  · refine List.forall_iff_forall_mem.mpr ?_
    intro i hi
    rw [List.mem_range] at hi
    have hinitlen : (initLoop startRoom txs).monthlyMax.length = 12 := by simp [initLoop]
    have hdays : ∀ d ∈ daysOfYear year, d.1 < (initLoop startRoom txs).monthlyMax.length := by
      rw [hinitlen]
      exact days_month_lt_12 year
    have hG := foldl_monthlyMax_getD (daysOfYear year) (initLoop startRoom txs) i
      (by rw [hinitlen]; exact hi) hdays
    have hinit0 : (initLoop startRoom txs).monthlyMax.getD i 0 = 0 := by
      show (List.replicate 12 (0 : ℚ)).getD i 0 = 0
      exact getD_replicate_zero 12 i
    rw [hinit0] at hG
    have hG2 : (runLoop year startRoom txs).monthlyMax.getD i 0 =
        ((excessTrace (initLoop startRoom txs) (daysOfYear year)).filterMap
          (fun p => if p.1 = i then some p.2 else none)).foldl max 0 := hG
    have hviz : (calculatePenalty year startRoom txs).vizExcess =
        (excessTrace (initLoop startRoom txs) (daysOfYear year)).map Prod.snd := by
      show (runLoop year startRoom txs).vizExcess = _
      rw [runLoop, foldl_vizExcess]
      show ([] : List ℚ) ++ _ = _
      rw [List.nil_append]
    have hmv : monthVals year (calculatePenalty year startRoom txs).vizExcess i =
        (excessTrace (initLoop startRoom txs) (daysOfYear year)).filterMap
          (fun p => if p.1 = i then some p.2 else none) := by
      rw [monthVals, hviz, zip_filterMap_trace]
    have h1 : i < ((runLoop year startRoom txs).monthlyMax.enum.map (fun p =>
        ({ month := MONTHS.getD p.1 ""
           maxExcess := p.2
           penalty := p.2 * (1 / 100)
           isAffected := decide ((0 : ℚ) < p.2) } : MonthlyRecord))).length := by
      simp [hmax12, hi]
    have h2 : i < (runLoop year startRoom txs).monthlyMax.length := by
      rw [hmax12]
      exact hi
    have hlen2 : i < (calculatePenalty year startRoom txs).monthlyDetails.length := by
      rw [hlen]
      exact hi
    have hmaxE : ((calculatePenalty year startRoom txs).monthlyDetails.getD i
        default).maxExcess = (runLoop year startRoom txs).monthlyMax.getD i 0 := by
      have e1 : (calculatePenalty year startRoom txs).monthlyDetails.getD i default =
          (calculatePenalty year startRoom txs).monthlyDetails.get ⟨i, hlen2⟩ := by
        rw [List.getD_eq_getElem?_getD, List.getElem?_eq_getElem hlen2, Option.getD_some,
          List.get_eq_getElem]
      have e2 : (runLoop year startRoom txs).monthlyMax.getD i 0 =
          (runLoop year startRoom txs).monthlyMax.get ⟨i, h2⟩ := by
        rw [List.getD_eq_getElem?_getD, List.getElem?_eq_getElem h2, Option.getD_some,
          List.get_eq_getElem]
      rw [e1, e2]
      simp only [List.get_eq_getElem, hdet, List.getElem_map, List.getElem_enum]
    constructor
    · refine List.forall_iff_forall_mem.mpr ?_
      intro v hv
      rw [hmv] at hv
      rw [hmaxE, hG2]
      exact le_foldl_max_mem _ 0 v hv
    · rw [hmaxE, hG2, hmv]
      rcases foldl_max_choice ((excessTrace (initLoop startRoom txs)
          (daysOfYear year)).filterMap (fun p => if p.1 = i then some p.2 else none)) 0
        with hc | hc
      · obtain ⟨s, hs⟩ := days_month_exists year i hi
        have hifst : i ∈ (excessTrace (initLoop startRoom txs)
            (daysOfYear year)).map Prod.fst := by
          rw [excessTrace_fst]
          exact List.mem_map_of_mem Prod.fst hs
        obtain ⟨p, hp, hpi⟩ := List.mem_map.mp hifst
        have hv0 : p.2 ∈ (excessTrace (initLoop startRoom txs)
            (daysOfYear year)).filterMap (fun q => if q.1 = i then some q.2 else none) :=
          List.mem_filterMap.mpr ⟨p, hp, by rw [if_pos hpi]⟩
        have hle : p.2 ≤ 0 := by
          have h3 := le_foldl_max_mem _ 0 p.2 hv0
          rw [hc] at h3
          exact h3
        have hge : 0 ≤ p.2 := by
          refine excessTrace_nonneg (daysOfYear year) (initLoop startRoom txs) ?_ p hp
          exact initState_excess_nonneg startRoom
        rw [hc, ← le_antisymm hle hge]
        exact hv0
      · exact hc

/-! ### Claim C10 -/

theorem finalize_congr (year : ℕ) (startRoom : ℚ) (a b : LoopState)
    (h1 : a.sim = b.sim) (h2 : a.monthlyMax = b.monthlyMax)
    (h3 : a.vizDates = b.vizDates) (h4 : a.vizExcess = b.vizExcess) :
    finalize year startRoom a = finalize year startRoom b := by
  unfold finalize
  rw [h1, h2, h3, h4]

/-- C10: a transaction whose date is not one of the day strings of the
simulated year is never applied, and if the sorted ledger contains a
transaction dated lexically before January 1 of the year, nothing at or
after it is applied: the result equals the result for the sorted ledger
truncated just before that transaction. -/
theorem spec_C10 (year : ℕ) (startRoom : ℚ) (txs : List Tx) :
    (appliedTxs year startRoom txs).Forall
      (fun t => t.date ∈ (daysOfYear year).map Prod.snd) ∧
    (∀ pre t post, sortTxs txs = pre ++ t :: post →
      t.date < dateString (utcFullYear year) 1 1 →
      calculatePenalty year startRoom txs = calculatePenalty year startRoom pre) := by
  constructor
  · refine List.forall_iff_forall_mem.mpr ?_
    intro u hu
    rcases foldl_applied_mem (daysOfYear year) (initLoop startRoom txs) u hu with h | ⟨d, hd, hdate⟩
    · simp [initLoop] at h
    · rw [hdate]
      exact List.mem_map_of_mem Prod.snd hd
  · intro pre t post hsplit hlt
    have hsorted : List.Sorted txLe (sortTxs txs) := List.sorted_insertionSort txLe txs
    rw [hsplit] at hsorted
    have hparts := List.pairwise_append.mp hsorted
    have hpre_le : ∀ a ∈ pre, txLe a t :=
      fun a ha => hparts.2.2 a ha t (List.mem_cons_self _ _)
    have hpre_sorted : List.Sorted txLe pre := hparts.1
    have hsort_pre : sortTxs pre = pre := hpre_sorted.insertionSort_eq
    have hhead : ∀ u, pre.head? = some u ∨ (pre = [] ∧ u = t) →
        u.date < dateString (utcFullYear year) 1 1 := by
      intro u hu
      rcases hu with hu | ⟨_, rfl⟩
      · cases pre with
        | nil => simp at hu
        | cons a pre' =>
            have : a = u := by simpa using hu
            subst this
            exact lt_of_le_of_lt (hpre_le a (List.mem_cons_self _ _)) hlt
      · exact hlt
    have hblock1 : ∀ d ∈ daysOfYear year, ∀ u,
        (initLoop startRoom txs).pending.head? = some u → u.date ≠ d.2 := by
      intro d hd u hu hdeq
      have hp : (initLoop startRoom txs).pending = pre ++ t :: post := by
        show sortTxs txs = _
        exact hsplit
      rw [hp] at hu
      have hudate : u.date < dateString (utcFullYear year) 1 1 := by
        cases pre with
        | nil =>
            have : t = u := by simpa using hu
            subst this
            exact hlt
        | cons a pre' =>
            have : a = u := by simpa using hu
            subst this
            exact lt_of_le_of_lt (hpre_le a (List.mem_cons_self _ _)) hlt
      have : u.date < d.2 := lt_of_lt_of_le hudate (jan1_le_dayStr year d hd)
      rw [hdeq] at this
      exact lt_irrefl _ this
    have hblock2 : ∀ d ∈ daysOfYear year, ∀ u,
        (initLoop startRoom pre).pending.head? = some u → u.date ≠ d.2 := by
      intro d hd u hu hdeq
      have hp : (initLoop startRoom pre).pending = pre := by
        show sortTxs pre = _
        exact hsort_pre
      rw [hp] at hu
      have hudate : u.date < dateString (utcFullYear year) 1 1 := by
        cases pre with
        | nil => simp at hu
        | cons a pre' =>
            have : a = u := by simpa using hu
            subst this
            exact lt_of_le_of_lt (hpre_le a (List.mem_cons_self _ _)) hlt
      have : u.date < d.2 := lt_of_lt_of_le hudate (jan1_le_dayStr year d hd)
      rw [hdeq] at this
      exact lt_irrefl _ this
    have hagree := foldl_blocked_agree (daysOfYear year) (initLoop startRoom txs)
      (initLoop startRoom pre) rfl rfl rfl rfl hblock1 hblock2
    exact finalize_congr year startRoom _ _ hagree.1 hagree.2.1 hagree.2.2.1 hagree.2.2.2

theorem spec_C10_witness :
    sortTxs [⟨"2023-12-31", TxType.CONTRIBUTION, 5⟩] =
      [] ++ (⟨"2023-12-31", TxType.CONTRIBUTION, 5⟩ : Tx) :: [] ∧
    ("2023-12-31" : String) < dateString (utcFullYear 2024) 1 1 ∧
    calculatePenalty 2024 100 [⟨"2023-12-31", TxType.CONTRIBUTION, 5⟩] =
      calculatePenalty 2024 100 [] := by
  have h1 : sortTxs [⟨"2023-12-31", TxType.CONTRIBUTION, 5⟩] =
      [] ++ (⟨"2023-12-31", TxType.CONTRIBUTION, 5⟩ : Tx) :: [] := rfl
  have h2 : (("2023-12-31" : String)) < dateString (utcFullYear 2024) 1 1 := by
    rw [String.lt_iff_toList_lt]
    decide
  exact ⟨h1, h2, (spec_C10 2024 100 [⟨"2023-12-31", TxType.CONTRIBUTION, 5⟩]).2
    [] ⟨"2023-12-31", TxType.CONTRIBUTION, 5⟩ [] h1 h2⟩

/-! ### Claims C8 and C9 -/

theorem spec_C8_counterexample :
    headerStart (splitLines "2024-03-05,Contribution,100,Update Bank") = 1 ∧
    (splitCsvLine "2024-03-05,Contribution,100,Update Bank").getD 0 "" = "2024-03-05" ∧
    containsSub (lowerStr "2024-03-05") "date" = false ∧
    processCsvData (fun _ => none) "2024-03-05,Contribution,100,Update Bank" =
      { added := [], errors := [] } ∧
    processLine (fun _ => none) "2024-03-05,Contribution,100,Update Bank" =
      LineResult.ok ⟨"2024-03-05", TxType.CONTRIBUTION, JsNum.val 100, "Update Bank"⟩ := by
  refine ⟨by decide, by decide, by decide, by decide, by decide⟩

/-- C8 amended: the first input line is skipped as a header exactly when the
whole first line (not only its date column) contains the substring date,
case-insensitively; otherwise processing starts at the first line. -/
theorem spec_C8 (oracle : String → Option String) (text : String) :
    (containsSub (lowerStr ((splitLines text).headD "")) "date" = true →
      processCsvData oracle text = csvLoop oracle 1 ((splitLines text).drop 1)) ∧
    (containsSub (lowerStr ((splitLines text).headD "")) "date" = false →
      processCsvData oracle text = csvLoop oracle 0 (splitLines text)) := by
  constructor
  · intro h
    simp only [processCsvData, headerStart]
    rw [h]
    simp
  · intro h
    simp only [processCsvData, headerStart]
    rw [h]
    simp

theorem spec_C8_witness :
    containsSub (lowerStr ((splitLines "Date,Type,Amount\n2024-01-15,Contribution,5,RBC").headD ""))
      "date" = true ∧
    processCsvData (fun _ => none) "Date,Type,Amount\n2024-01-15,Contribution,5,RBC" =
      csvLoop (fun _ => none) 1
        ((splitLines "Date,Type,Amount\n2024-01-15,Contribution,5,RBC").drop 1) := by
  refine ⟨by decide, (spec_C8 (fun _ => none)
    "Date,Type,Amount\n2024-01-15,Contribution,5,RBC").1 (by decide)⟩

theorem spec_C9_counterexample :
    (processCsvData (fun _ => none) "2024-01-15,Contribution,Infinity,RBC").errors = [] ∧
    (processCsvData (fun _ => none) "2024-01-15,Contribution,Infinity,RBC").added =
      [⟨"2024-01-15", TxType.CONTRIBUTION, JsNum.inf, "RBC"⟩] ∧
    parseFloat (stripCommas "Infinity") = JsNum.inf ∧
    jsFinite JsNum.inf = false ∧
    jsPos JsNum.inf = true := by
  refine ⟨by decide, by decide, by decide, by decide, by decide⟩

theorem jsPos_of_not_bad (n : JsNum)
    (h : ¬ (jsIsNaN n || jsLeZero n) = true) : jsPos n = true := by
  cases n
  · simp [jsIsNaN] at h
  · simp [jsPos]
  · simp [jsIsNaN, jsLeZero] at h
  · simp [jsIsNaN, jsLeZero] at h
    simpa [jsPos] using h

theorem processLine_ok_amount (oracle : String → Option String) (line : String) (tx : CsvTx)
    (h : processLine oracle line = LineResult.ok tx) : jsPos tx.amount = true := by
  simp only [processLine] at h
  split at h
  · exact LineResult.noConfusion h
  · split at h
    · rename_i dateRaw typeRaw amountRaw restCols
      split at h
      · exact LineResult.noConfusion h
      · rename_i hbad
        split at h
        · cases h
          exact jsPos_of_not_bad _ hbad
        · split at h
          · cases h
            exact jsPos_of_not_bad _ hbad
          · exact LineResult.noConfusion h
    · exact LineResult.noConfusion h

/-- C9 amended: a line that reaches the amount check is rejected with an
amount error exactly when the comma-stripped amount parses to NaN or to a
value <= 0 (an infinite parsed amount is admitted, so admitted amounts are
positive but not necessarily finite); every admitted transaction has a
positive amount; and the batch is processed line by line, a rejection never
aborting the remaining lines. -/
theorem spec_C9 (oracle : String → Option String) :
    (∀ text, (processCsvData oracle text).added.Forall (fun tx => jsPos tx.amount = true)) ∧
    (∀ (i : ℕ) (lines : List String),
      (csvLoop oracle i lines).added =
        lines.filterMap (fun l => lineTx (processLine oracle l)) ∧
      (csvLoop oracle i lines).errors =
        (List.enumFrom i lines).filterMap (fun p => lineMsg p.1 (processLine oracle p.2))) ∧
    (∀ line raw, processLine oracle line = LineResult.amountErr raw ↔
      (trimStr line ≠ "" ∧
       3 ≤ ((splitCsvLine (trimStr line)).map (fun c => stripEdgeQuotes (trimStr c))).length ∧
       ((splitCsvLine (trimStr line)).map (fun c => stripEdgeQuotes (trimStr c))).getD 2 "" = raw ∧
       (jsIsNaN (parseFloat (stripCommas raw)) ||
        jsLeZero (parseFloat (stripCommas raw))) = true)) := by
  have hdecomp : ∀ (i : ℕ) (lines : List String),
      (csvLoop oracle i lines).added =
        lines.filterMap (fun l => lineTx (processLine oracle l)) ∧
      (csvLoop oracle i lines).errors =
        (List.enumFrom i lines).filterMap (fun p => lineMsg p.1 (processLine oracle p.2)) := by
    intro i lines
    induction lines generalizing i with
    | nil => exact ⟨rfl, rfl⟩
    | cons l rest ih =>
        constructor
        · show (lineTx (processLine oracle l)).toList ++ (csvLoop oracle (i + 1) rest).added = _
          rw [(ih (i + 1)).1, List.filterMap_cons]
          cases hr : lineTx (processLine oracle l) <;> simp
        · show (lineMsg i (processLine oracle l)).toList ++ (csvLoop oracle (i + 1) rest).errors = _
          rw [(ih (i + 1)).2, List.enumFrom_cons, List.filterMap_cons]
          cases hr : lineMsg i (processLine oracle l) <;> simp
  refine ⟨?_, hdecomp, ?_⟩
  · intro text
    refine List.forall_iff_forall_mem.mpr ?_
    intro tx htx
    have hadded : (processCsvData oracle text).added =
        ((splitLines text).drop (headerStart (splitLines text))).filterMap
          (fun l => lineTx (processLine oracle l)) :=
      (hdecomp (headerStart (splitLines text))
        ((splitLines text).drop (headerStart (splitLines text)))).1
    rw [hadded] at htx
    obtain ⟨l, _, hsome⟩ := List.mem_filterMap.mp htx
    have hok : processLine oracle l = LineResult.ok tx := by
      cases hr : processLine oracle l <;> rw [hr] at hsome <;> simp [lineTx] at hsome
      rw [hsome]
    exact processLine_ok_amount oracle l tx hok
  · intro line raw
    constructor
    · intro h
      simp only [processLine] at h
      split at h
      · exact LineResult.noConfusion h
      · rename_i hne
        split at h
        · rename_i dateRaw typeRaw amountRaw restCols heq
          split at h
          · rename_i hbad
            cases h
            refine ⟨hne, ?_, ?_, hbad⟩
            · rw [heq]
              simp
            · rw [heq]
              rfl
          · rename_i hgood
            split at h
            · exact LineResult.noConfusion h
            · split at h
              · exact LineResult.noConfusion h
              · exact LineResult.noConfusion h
        · exact LineResult.noConfusion h
    · rintro ⟨h1, hlen, hgetD, hbad⟩
      simp only [processLine]
      rw [if_neg h1]
      rcases hcols : (splitCsvLine (trimStr line)).map (fun c => stripEdgeQuotes (trimStr c))
        with _ | ⟨d, _ | ⟨ty, _ | ⟨a, rest⟩⟩⟩
      · rw [hcols] at hlen
        simp at hlen
      · rw [hcols] at hlen
        simp at hlen
      · rw [hcols] at hlen
        simp at hlen
      · have ha : a = raw := by
          rw [hcols] at hgetD
          exact hgetD
        subst ha
        dsimp only
        rw [if_pos hbad]
